import Mathlib

/-!
Verification of the declaration-extraction engine of `scripts/build.py`
(eos-sdk-json).  The script is shallowly embedded: Python strings are lists
of characters, Python dicts are association lists in insertion order, and a
fatal Python exception (failed `assert`, out-of-range list index, failed
`int(...)` conversion) is an explicit error value.

Loops of the script that walk a line cursor `i` over a list of lines are
embedded as structural recursion over the suffix `lines[i:]`; the index
returned by the Python function is recovered as `lines.length - rest.length`
where `rest` is the unconsumed suffix.
-/

namespace EosIndex

/-- Python strings are modelled as lists of characters. -/
abbrev PyStr := List Char

/-- A fatal Python exception kind raised by the script. -/
inductive PyErr : Type where
  | assertionError : PyErr
  | indexError : PyErr
  | valueError : PyErr
deriving DecidableEq

/-- Characters removed by Python `str.strip()` with no argument. -/
def isPyWs (c : Char) : Bool :=
  c = ' ' || c = '\t' || c = '\n' || c = '\r' || c = '\x0b' || c = '\x0c'

/-- Python `str.lstrip`, parameterised by the character predicate. -/
def pyLstrip (p : Char → Bool) (s : PyStr) : PyStr := s.dropWhile p

/-- Python `str.rstrip`, parameterised by the character predicate. -/
def pyRstrip (p : Char → Bool) (s : PyStr) : PyStr := (s.reverse.dropWhile p).reverse

/-- Python `str.strip()` (whitespace on both ends). -/
def pyStrip (s : PyStr) : PyStr := pyRstrip isPyWs (pyLstrip isPyWs s)

/-- Python `sub in s` (substring containment; the empty pattern is contained). -/
def hasSub (pat : PyStr) : PyStr → Bool
  | [] => pat.isEmpty
  | c :: t => pat.isPrefixOf (c :: t) || hasSub pat t

/-- Python `s.split(pat)[0]`: the text before the first occurrence of `pat`
(the whole string when `pat` does not occur). -/
def takeUntilSub (pat : PyStr) : PyStr → PyStr
  | [] => []
  | c :: t => if pat.isPrefixOf (c :: t) then [] else c :: takeUntilSub pat t

/-- Python `s.replace(pat, rep, 1)`: replace the first occurrence only. -/
def replaceFirst (pat rep : PyStr) : PyStr → PyStr
  | [] => []
  | c :: t => if pat.isPrefixOf (c :: t) then rep ++ (c :: t).drop pat.length
              else c :: replaceFirst pat rep t

/-- Worker for `replaceAll`: `skip` counts characters of an already-replaced
occurrence that still have to be dropped before scanning resumes. -/
def replaceAllGo (pat rep : PyStr) : Nat → PyStr → PyStr
  | _, [] => []
  | Nat.succ k, _ :: t => replaceAllGo pat rep k t
  | 0, c :: t =>
    if pat ≠ [] ∧ pat.isPrefixOf (c :: t) then rep ++ replaceAllGo pat rep (pat.length - 1) t
    else c :: replaceAllGo pat rep 0 t

/-- Python `s.replace(pat, rep)` for a non-empty pattern: replace every
occurrence, scanning left to right. -/
def replaceAll (pat rep s : PyStr) : PyStr := replaceAllGo pat rep 0 s

/-- Python `s.split(c)` for a single-character separator. -/
def splitCh (c : Char) : PyStr → List PyStr
  | [] => [[]]
  | x :: t =>
    match splitCh c t with
    | [] => [[]]
    | h :: r => if x = c then [] :: h :: r else (x :: h) :: r

/-- Python `c.join(parts)` for a single-character separator. -/
def joinCh (c : Char) (l : List PyStr) : PyStr := (l.intersperse [c]).flatten

/-- Maximal prefix run satisfying `p` together with the rest of the string:
the way the regexes of the script consume `[...]+` character classes. -/
def takeRun (p : Char → Bool) (s : PyStr) : PyStr × PyStr := (s.takeWhile p, s.dropWhile p)

/-- Splits `s` around the last occurrence of `c`: `some (before, after)` when
`c` occurs, `none` otherwise. -/
def breakLast (c : Char) : PyStr → Option (PyStr × PyStr)
  | [] => none
  | x :: t =>
    match breakLast c t with
    | some (b, a) => some (x :: b, a)
    | none => if x = c then some ([], t) else none

/-- A character of the class `[a-zA-Z0-9_]` used by the script's regexes. -/
def isAlnumU (c : Char) : Bool := c.isAlpha || c.isDigit || c = '_'

/-- Numeric value of a list of ASCII digits. -/
def digitsToNat (s : PyStr) : Nat := s.foldl (fun a c => a * 10 + (c.toNat - 48)) 0

/-- Python `int(x)` on a string: strip whitespace, optional sign, then a
non-empty run of decimal digits; anything else raises `ValueError`. -/
def pyIntStr (s : PyStr) : Option Int :=
  match pyStrip s with
  | '-' :: u => if u ≠ [] ∧ u.all Char.isDigit then some (-(digitsToNat u : Int)) else none
  | '+' :: u => if u ≠ [] ∧ u.all Char.isDigit then some ((digitsToNat u : Int)) else none
  | u => if u ≠ [] ∧ u.all Char.isDigit then some ((digitsToNat u : Int)) else none

/-- Python `str(n)` for an integer. -/
def intToStr (n : Int) : PyStr := (toString n).data

/-!
## Logical-line mergers (`absorb_comment`, `absorb_directive`)

`absorb_comment(lines, i, line)` in the script transforms the starting line
(`line[2:].lstrip('*').strip()`), then loops `while '*/' not in line`,
accumulating `line.lstrip('*').lstrip()` and reading `lines[i].strip()`;
reading past the end of `lines` raises `IndexError`.
-/

/-- The `while '*/' not in line` loop of `absorb_comment`, recursing over the
unread suffix of `lines`. -/
def absorbCommentLoop : List PyStr → PyStr → PyStr → Except PyErr (List PyStr × PyStr)
  | rest, line, last =>
    if hasSub "*/".data line then
      -- line.split('*/')[0].rstrip('*').strip(), joined, then rstrip('\n')
      .ok (rest, pyRstrip (· = '\n')
        (let fin := pyStrip (pyRstrip (· = '*') (takeUntilSub "*/".data line))
         if last ≠ [] then last ++ '\n' :: fin else fin))
    else
      match rest with
      | [] => .error .indexError
      | l :: rest' =>
        absorbCommentLoop rest' (pyStrip l)
          (let lineContent := pyLstrip isPyWs (pyLstrip (· = '*') line)
           if last ≠ [] then last ++ '\n' :: lineContent else lineContent)

/-- `absorb_comment` of the script acting on the suffix `lines[i:]`. -/
def absorbCommentS (rest : List PyStr) (line : PyStr) : Except PyErr (List PyStr × PyStr) :=
  if ("/*".data).isPrefixOf (pyLstrip isPyWs line) then
    absorbCommentLoop rest (pyStrip (pyLstrip (· = '*') (line.drop 2))) []
  else
    .error .assertionError

/-- `absorb_comment(lines, i, line)` of the script; the returned cursor is the
index of the first unread line. -/
def absorb_comment (lines : List PyStr) (i : Nat) (line : PyStr) :
    Except PyErr (Nat × PyStr) :=
  match absorbCommentS (lines.drop i) line with
  | .error e => .error e
  | .ok (rest, text) => .ok (lines.length - rest.length, text)

/-- Whether a line keeps a directive open: `line.rstrip('\n').endswith('\\')`. -/
def contOpen (line : PyStr) : Bool :=
  ("\\".data).reverse.isPrefixOf (pyRstrip (· = '\n') line).reverse

/-- The `while` loop of `absorb_directive`, recursing over the unread suffix. -/
def absorbDirectiveLoop : List PyStr → PyStr → PyStr → Except PyErr (List PyStr × PyStr)
  | rest, line, acc =>
    if contOpen line then
      match rest with
      | [] => .error .indexError
      | l :: rest' => absorbDirectiveLoop rest' l (acc ++ replaceAll "\\\n".data "\n".data line)
    else
      .ok (rest, acc ++ line)

/-- `absorb_directive` of the script acting on the suffix `lines[i:]`. -/
def absorbDirectiveS (rest : List PyStr) (line : PyStr) : Except PyErr (List PyStr × PyStr) :=
  absorbDirectiveLoop rest line []

/-- `absorb_directive(lines, i, line)` of the script. -/
def absorb_directive (lines : List PyStr) (i : Nat) (line : PyStr) :
    Except PyErr (Nat × PyStr) :=
  match absorbDirectiveS (lines.drop i) line with
  | .error e => .error e
  | .ok (rest, text) => .ok (lines.length - rest.length, text)

theorem absorbCommentLoop_unterminated :
    ∀ (rest : List PyStr) (line last : PyStr), hasSub "*/".data line = false →
      (∀ l ∈ rest, hasSub "*/".data (pyStrip l) = false) →
      absorbCommentLoop rest line last = .error .indexError := by
  intro rest
  induction rest with
  | nil =>
    intro line last hline _
    rw [absorbCommentLoop]
    simp [hline]
  | cons l rest' ih =>
    intro line last hline hrest
    rw [absorbCommentLoop]
    simp only [hline, Bool.false_eq_true, if_false]
    exact ih _ _ (hrest l (List.mem_cons_self l rest'))
      (fun x hx => hrest x (List.mem_cons_of_mem l hx))

theorem absorbDirectiveLoop_unterminated :
    ∀ (rest : List PyStr) (line acc : PyStr), contOpen line = true →
      (∀ l ∈ rest, contOpen l = true) →
      absorbDirectiveLoop rest line acc = .error .indexError := by
  intro rest
  induction rest with
  | nil =>
    intro line acc hline _
    rw [absorbDirectiveLoop]
    simp [hline]
  | cons l rest' ih =>
    intro line acc hline hrest
    rw [absorbDirectiveLoop]
    simp only [hline, if_true]
    exact ih _ _ (hrest l (List.mem_cons_self l rest'))
      (fun x hx => hrest x (List.mem_cons_of_mem l hx))

/-- C7 counterexample: with the input ending during a still-open block comment
(resp. a still-continued directive), the mergers abort with an out-of-bounds
index access (`lines[i]` raising `IndexError`) instead of returning the text
absorbed so far. -/
theorem c7_counterexample :
    absorb_comment ["still open".data] 0 "/* open".data = .error .indexError ∧
    absorb_directive ([] : List PyStr) 0 "#define A 1 \\".data = .error .indexError := by
  exact ⟨rfl, rfl⟩

/-- C7 (amended): the mergers are not total.  Whenever the comment terminator
never appears on the remaining lines (resp. every remaining line still ends in
a continuation backslash), `absorb_comment` (resp. `absorb_directive`) fails
with an index error rather than returning the absorbed text. -/
theorem c7_amended :
    (∀ (lines : List PyStr) (i : Nat) (line : PyStr),
      ("/*".data).isPrefixOf (pyLstrip isPyWs line) = true →
      hasSub "*/".data (pyStrip (pyLstrip (· = '*') (line.drop 2))) = false →
      (∀ l ∈ lines.drop i, hasSub "*/".data (pyStrip l) = false) →
      absorb_comment lines i line = .error .indexError) ∧
    (∀ (lines : List PyStr) (i : Nat) (line : PyStr),
      contOpen line = true →
      (∀ l ∈ lines.drop i, contOpen l = true) →
      absorb_directive lines i line = .error .indexError) := by
  constructor
  · intro lines i line hpre hline hrest
    rw [absorb_comment, absorbCommentS, if_pos hpre,
      absorbCommentLoop_unterminated (lines.drop i) _ [] hline hrest]
  · intro lines i line hline hrest
    rw [absorb_directive, absorbDirectiveS,
      absorbDirectiveLoop_unterminated (lines.drop i) _ [] hline hrest]

/-- C7 witness: the amended theorem applied to concrete unterminated inputs. -/
theorem c7_witness :
    absorb_comment ["no close".data] 0 "/* first".data = .error .indexError ∧
    absorb_directive (["b \\".data]) 0 "a \\".data = .error .indexError := by
  constructor
  · exact c7_amended.1 ["no close".data] 0 "/* first".data (by decide) (by decide) (by decide)
  · exact c7_amended.2 (["b \\".data]) 0 "a \\".data (by decide) (by decide)

/-!
## Parameter lists and the function / callback sub-parsers
-/

/-- One `{name, type}` parameter record produced by `explode_parameters`. -/
structure ParamRec where
  name : PyStr
  type : PyStr
deriving DecidableEq

/-- `explode_parameters` of the script: split on commas; within each segment,
`param.strip().split(' ')`, the last piece is the name and the space-join of
the remaining pieces, stripped, is the type. -/
def explode_parameters (line : PyStr) : List ParamRec :=
  (splitCh ',' line).map (fun param =>
    let ps := splitCh ' ' (pyStrip param)
    { name := ps.getLastD [], type := pyStrip (joinCh ' ' ps.dropLast) })

/-- The parameter-list computation of `parse_function` applied to the raw
`params` capture group:
`[*explode_parameters(params)] if params not in ('void', '') else []` after
`params = funcinfo['params'].strip()`. -/
def funcParams (paramsRaw : PyStr) : List ParamRec :=
  let params := pyStrip paramsRaw
  if params = "void".data ∨ params = [] then [] else explode_parameters params

/-- Python `s.endswith(suf)`. -/
def endsWithL (suf s : PyStr) : Bool := suf.reverse.isPrefixOf s.reverse

/-- A function record of `parse_function` (the fields of the returned dict). -/
structure FuncRec where
  comment : PyStr
  methodname_flat : PyStr
  params : List ParamRec
  returntype : PyStr
  source : PyStr
deriving DecidableEq

/-- `parse_function` of the script for one line.  The regex
`^EOS_DECLARE_FUNC\((?P<retval>[^)]+)\) *(?P<funcname>[a-zA-Z0-9_]+)\((?P<params>.*)\);$`
is matched structurally: the literal prefix, a non-empty run of non-`)`
characters, `)`, a space run, a non-empty identifier run, `(`, and everything
up to the terminal `);` as the `params` group.  A failed match is the failed
`assert funcinfo`. -/
def parse_function (line comment file : PyStr) : Except PyErr FuncRec :=
  if ("EOS_DECLARE_FUNC(".data).isPrefixOf line then
    let r0 := line.drop ("EOS_DECLARE_FUNC(".data).length
    let (retval, r1) := takeRun (· ≠ ')') r0
    match r1 with
    | ')' :: r2 =>
      if retval = [] then .error .assertionError else
      let r3 := r2.dropWhile (· = ' ')
      let (fname, r4) := takeRun isAlnumU r3
      match r4 with
      | '(' :: r5 =>
        if fname = [] then .error .assertionError else
        if endsWithL ");".data r5 then
          .ok { comment := comment
                methodname_flat := pyStrip fname
                params := funcParams (r5.take (r5.length - 2))
                returntype := pyStrip retval
                source := file }
        else .error .assertionError
      | _ => .error .assertionError
    | _ => .error .assertionError
  else .error .assertionError

/-- A callback record of `parse_callback`. -/
structure CallbackRec where
  callbackname : PyStr
  comment : PyStr
  params : List ParamRec
  returntype : PyStr
  source : PyStr
deriving DecidableEq

/-- `parse_callback` of the script for one line.  The regex
`^(EOS_DECLARE_CALLBACK\(|EOS_DECLARE_CALLBACK_RETVALUE\((?P<rettype>[^,]+), *)(?P<cbname>[a-zA-Z0-9_]+),?(?P<params>.*)\);$`
is matched structurally; note that, unlike `parse_function`, the parameter
text is always fed to `explode_parameters`, with no `void`/empty special
case. -/
def parse_callback (line comment file : PyStr) : Except PyErr CallbackRec :=
  let head : Option (Option PyStr × PyStr) :=
    if ("EOS_DECLARE_CALLBACK(".data).isPrefixOf line then
      some (none, line.drop ("EOS_DECLARE_CALLBACK(".data).length)
    else if ("EOS_DECLARE_CALLBACK_RETVALUE(".data).isPrefixOf line then
      let r0 := line.drop ("EOS_DECLARE_CALLBACK_RETVALUE(".data).length
      let (rt, r1) := takeRun (· ≠ ',') r0
      match r1 with
      | ',' :: r2 => if rt = [] then none else some (some rt, r2.dropWhile (· = ' '))
      | _ => none
    else none
  match head with
  | none => .error .assertionError
  | some (rt, r3) =>
    let (cbname, r4) := takeRun isAlnumU r3
    if cbname = [] then .error .assertionError else
    let r5 := match r4 with
      | ',' :: r5 => r5
      | r4 => r4
    if endsWithL ");".data r5 then
      .ok { callbackname := pyStrip cbname
            comment := comment
            params := explode_parameters (pyStrip (r5.take (r5.length - 2)))
            returntype := (match rt with | none => "void".data | some t => pyStrip t)
            source := file }
    else .error .assertionError

/-!
## The registrars (`assert_insert`, `assert_insert_if`) and claim C1/C9
-/

/-- The specifically tombstoned legacy callback name. -/
def tombstone : PyStr := "EOS_AntiCheatClient_ReceiveMessageFromPeer".data

/-- `assert_insert(target, value_key, value)` of the script: a Python dict is
an association list in insertion order; `assert value[value_key] not in
target` then `target[value[value_key]] = value`. -/
def assert_insert {V : Type} (target : List (PyStr × V)) (key : V → PyStr) (v : V) :
    Except PyErr (List (PyStr × V)) :=
  if key v ∈ target.map Prod.fst then .error .assertionError
  else .ok (target ++ [(key v, v)])

/-- `assert_insert_if(target, ignores, value_key, value)` of the script: an
unconditional `assert False` for the tombstoned name, then silently drop
ignored names, then the duplicate check and insertion. -/
def assert_insert_if {V : Type} (target : List (PyStr × V)) (ignores : List PyStr)
    (key : V → PyStr) (v : V) : Except PyErr (List (PyStr × V)) :=
  if key v = tombstone then .error .assertionError
  else if key v ∈ ignores then .ok target
  else if key v ∈ target.map Prod.fst then .error .assertionError
  else .ok (target ++ [(key v, v)])

/-- Registering a sequence of values through `assert_insert`, starting from a
(possibly pre-seeded) mapping. -/
def registerAll {V : Type} (key : V → PyStr) (m0 : List (PyStr × V)) (vs : List V) :
    Except PyErr (List (PyStr × V)) :=
  vs.foldlM (fun t v => assert_insert t key v) m0

/-- Registering a sequence of values through `assert_insert_if`. -/
def registerAllIf {V : Type} (ignores : List PyStr) (key : V → PyStr)
    (m0 : List (PyStr × V)) (vs : List V) : Except PyErr (List (PyStr × V)) :=
  vs.foldlM (fun t v => assert_insert_if t ignores key v) m0

theorem registerAll_nodup {V : Type} (key : V → PyStr) :
    ∀ (vs : List V) (m0 m : List (PyStr × V)),
      (∀ p ∈ m0, p.1 = key p.2) → (m0.map Prod.fst).Nodup →
      registerAll key m0 vs = .ok m →
      (∀ p ∈ m, p.1 = key p.2) ∧ (m.map Prod.fst).Nodup := by
  intro vs
  induction vs with
  | nil =>
    intro m0 m hk hn h
    simp only [registerAll, List.foldlM_nil, pure, Except.pure, Except.ok.injEq] at h
    subst h
    exact ⟨hk, hn⟩
  | cons v vs ih =>
    intro m0 m hk hn h
    simp only [registerAll, List.foldlM_cons] at h
    rw [assert_insert] at h
    split at h
    · simp only [bind, Except.bind] at h
      exact absurd h (by simp)
    · rename_i hni
      simp only [bind, Except.bind] at h
      refine ih (m0 ++ [(key v, v)]) m ?_ ?_ h
      · intro p hp
        rcases List.mem_append.mp hp with hp | hp
        · exact hk p hp
        · simp only [List.mem_singleton] at hp
          subst hp
          rfl
      · rw [List.map_append]
        simp only [List.map_cons, List.map_nil]
        rw [List.nodup_append]
        exact ⟨hn, List.nodup_singleton _, by
          intro a ha hb
          simp only [List.mem_singleton] at hb
          subst hb
          exact hni ha⟩

theorem registerAllIf_nodup {V : Type} (ignores : List PyStr) (key : V → PyStr) :
    ∀ (vs : List V) (m0 m : List (PyStr × V)),
      (∀ p ∈ m0, p.1 = key p.2) → (m0.map Prod.fst).Nodup →
      registerAllIf ignores key m0 vs = .ok m →
      (∀ p ∈ m, p.1 = key p.2) ∧ (m.map Prod.fst).Nodup := by
  intro vs
  induction vs with
  | nil =>
    intro m0 m hk hn h
    simp only [registerAllIf, List.foldlM_nil, pure, Except.pure, Except.ok.injEq] at h
    subst h
    exact ⟨hk, hn⟩
  | cons v vs ih =>
    intro m0 m hk hn h
    simp only [registerAllIf, List.foldlM_cons] at h
    rw [assert_insert_if] at h
    split at h
    · simp only [bind, Except.bind] at h
      exact absurd h (by simp)
    · split at h
      · simp only [bind, Except.bind] at h
        exact ih m0 m hk hn h
      · split at h
        · simp only [bind, Except.bind] at h
          exact absurd h (by simp)
        · rename_i hni
          simp only [bind, Except.bind] at h
          refine ih (m0 ++ [(key v, v)]) m ?_ ?_ h
          · intro p hp
            rcases List.mem_append.mp hp with hp | hp
            · exact hk p hp
            · simp only [List.mem_singleton] at hp
              subst hp
              rfl
          · rw [List.map_append]
            simp only [List.map_cons, List.map_nil]
            rw [List.nodup_append]
            exact ⟨hn, List.nodup_singleton _, by
              intro a ha hb
              simp only [List.mem_singleton] at hb
              subst hb
              exact hni ha⟩

/-- C1: starting from a registry whose stored keys agree with each record's
name field and are duplicate-free (in particular the empty or pre-seeded
registries of `index_sdk_directory`), any successful sequence of
`assert_insert` (resp. `assert_insert_if`) registrations yields a mapping in
which no two entries share a name key; and an attempted insertion of an
already-registered (non-ignored) name halts with the assertion error instead
of inserting. -/
theorem c1_no_duplicate_names {V : Type} :
    (∀ (key : V → PyStr) (vs : List V) (m0 m : List (PyStr × V)),
      (∀ p ∈ m0, p.1 = key p.2) → (m0.map Prod.fst).Nodup →
      registerAll key m0 vs = .ok m → (m.map (fun p => key p.2)).Nodup) ∧
    (∀ (ignores : List PyStr) (key : V → PyStr) (vs : List V) (m0 m : List (PyStr × V)),
      (∀ p ∈ m0, p.1 = key p.2) → (m0.map Prod.fst).Nodup →
      registerAllIf ignores key m0 vs = .ok m → (m.map (fun p => key p.2)).Nodup) ∧
    (∀ (target : List (PyStr × V)) (key : V → PyStr) (v : V),
      key v ∈ target.map Prod.fst → assert_insert target key v = .error .assertionError) ∧
    (∀ (target : List (PyStr × V)) (ignores : List PyStr) (key : V → PyStr) (v : V),
      key v ∉ ignores → key v ∈ target.map Prod.fst →
      assert_insert_if target ignores key v = .error .assertionError) := by
  refine ⟨?_, ?_, ?_, ?_⟩
  · intro key vs m0 m hk hn h
    obtain ⟨hk', hn'⟩ := registerAll_nodup key vs m0 m hk hn h
    rwa [show m.map (fun p => key p.2) = m.map Prod.fst from
      List.map_congr_left (fun p hp => (hk' p hp).symm)]
  · intro ignores key vs m0 m hk hn h
    obtain ⟨hk', hn'⟩ := registerAllIf_nodup ignores key vs m0 m hk hn h
    rwa [show m.map (fun p => key p.2) = m.map Prod.fst from
      List.map_congr_left (fun p hp => (hk' p hp).symm)]
  · intro target key v hin
    rw [assert_insert, if_pos hin]
  · intro target ignores key v hig hin
    by_cases ht : key v = tombstone
    · rw [assert_insert_if, if_pos ht]
    · rw [assert_insert_if, if_neg ht, if_neg hig, if_pos hin]

/-- C1 witness: duplicate-free output and duplicate rejection at concrete
inputs (registering the names a, b and then re-registering a). -/
theorem c1_witness :
    ((registerAll (V := PyStr) id [] ["a".data, "b".data] = .ok [("a".data, "a".data), ("b".data, "b".data)]) ∧
      ([("a".data, "a".data), ("b".data, "b".data)].map (fun p : PyStr × PyStr => id p.2)).Nodup) ∧
    assert_insert [("a".data, "a".data)] id "a".data = .error .assertionError := by
  refine ⟨⟨by rfl, ?_⟩, ?_⟩
  · exact (c1_no_duplicate_names (V := PyStr)).1 id ["a".data, "b".data] [] _
      (by intro p hp; simp at hp) (by simp) (by rfl)
  · exact (c1_no_duplicate_names (V := PyStr)).2.2.1 [("a".data, "a".data)] id "a".data (by decide)

/-- Registering one `EOS_DECLARE_CALLBACK` line the way `index_sdk_directory`
does: `parse_callback` followed by the `assert_insert` registrar keyed by
`callbackname` (the `flags` table of the script). -/
def registerCallbackLine (callbacks : List (PyStr × CallbackRec)) (line comment file : PyStr) :
    Except PyErr (List (PyStr × CallbackRec)) :=
  match parse_callback line comment file with
  | .error e => .error e
  | .ok r => assert_insert callbacks (fun c => c.callbackname) r

/-- C9 counterexample: a callback declaration carrying the tombstoned legacy
name is registered successfully — the run does not halt, because only the
defines registrar (`assert_insert_if`) performs the tombstone check, while
`EOS_DECLARE_CALLBACK` lines go through plain `assert_insert`. -/
theorem c9_counterexample :
    Except.map (fun m => m.map Prod.fst)
      (registerCallbackLine []
        "EOS_DECLARE_CALLBACK(EOS_AntiCheatClient_ReceiveMessageFromPeer, const void* Data);".data
        [] "eos_anticheatclient_types.h".data)
      = .ok ["EOS_AntiCheatClient_ReceiveMessageFromPeer".data] := by
  rfl

/-- C9 (amended): the unconditional tombstone rejection applies only to the
defines registrar `assert_insert_if`, where it fires before the ignore-list
and duplicate checks; the registrar used by every other declaration kind
(`assert_insert`) performs no tombstone check and registers the name whenever
it is not a duplicate. -/
theorem c9_amended {V : Type} :
    (∀ (target : List (PyStr × V)) (ignores : List PyStr) (key : V → PyStr) (v : V),
      key v = tombstone → assert_insert_if target ignores key v = .error .assertionError) ∧
    (∀ (target : List (PyStr × V)) (key : V → PyStr) (v : V),
      key v ∉ target.map Prod.fst → assert_insert target key v = .ok (target ++ [(key v, v)])) := by
  constructor
  · intro target ignores key v hv
    rw [assert_insert_if, if_pos hv]
  · intro target key v hv
    rw [assert_insert, if_neg hv]

/-- C9 witness: the amended theorem at concrete inputs — the tombstoned name
is fatal for `assert_insert_if` even on an empty registry with itself in the
ignore list, and plain `assert_insert` accepts it. -/
theorem c9_witness :
    assert_insert_if ([] : List (PyStr × PyStr)) [tombstone] id tombstone
      = .error .assertionError ∧
    assert_insert ([] : List (PyStr × PyStr)) id tombstone
      = .ok [(tombstone, tombstone)] := by
  constructor
  · exact (c9_amended (V := PyStr)).1 [] [tombstone] id tombstone rfl
  · exact (c9_amended (V := PyStr)).2 [] id tombstone (by decide)

/-- C10: the callback sub-parser has no `void`/empty special case: for an
empty parameter text the parameter list is one record with empty name and
empty type, not the empty list (contrast with `funcParams`, shown on a
concrete declaration of each kind). -/
theorem c10_callback_empty_params :
    (∀ p : PyStr, pyStrip p = [] → explode_parameters (pyStrip p) = [⟨[], []⟩]) ∧
    (∃ r, parse_callback "EOS_DECLARE_CALLBACK(EOS_OnSomethingCallback);".data [] "f.h".data
        = .ok r ∧ r.params = [⟨[], []⟩]) ∧
    (∃ r, parse_function "EOS_DECLARE_FUNC(void) EOS_Foo();".data [] "f.h".data
        = .ok r ∧ r.params = []) := by
  refine ⟨?_, ⟨_, rfl, rfl⟩, ⟨_, rfl, rfl⟩⟩
  intro p hp
  rw [hp]
  rfl

/-- C10 witness: the empty-parameter-text case at the concrete input `"  "`
(whitespace only, which strips to empty). -/
theorem c10_witness :
    pyStrip "  ".data = [] ∧ explode_parameters (pyStrip "  ".data) = [⟨[], []⟩] :=
  ⟨by decide, c10_callback_empty_params.1 "  ".data (by decide)⟩

/-!
## Claim C5: the split rule of `explode_parameters` in the spec's phrasing

The spec describes each comma-segment as yielding the last space-separated
token as the name and everything before it (stripped) as the type.  `segName`
and `segType` state that description directly via the last occurrence of the
space character; the lemmas below show `explode_parameters` realises it.
-/

/-- Spec phrasing: the last space-separated token of a (stripped) segment —
the text after the last space, or the whole segment when it has no space. -/
def segName (t : PyStr) : PyStr :=
  match breakLast ' ' t with
  | some (_, a) => a
  | none => t

/-- Spec phrasing: everything before the last space, stripped; empty when the
segment has no space. -/
def segType (t : PyStr) : PyStr :=
  pyStrip (match breakLast ' ' t with
    | some (b, _) => b
    | none => [])

theorem splitCh_ne_nil (c : Char) (t : PyStr) : splitCh c t ≠ [] := by
  cases t with
  | nil => simp [splitCh]
  | cons x t' =>
    rcases hs : splitCh c t' with _ | ⟨hd, r⟩
    · simp [splitCh, hs]
    · by_cases hxc : x = c <;> simp [splitCh, hs, hxc]

theorem splitCh_of_breakLast_none (c : Char) :
    ∀ t : PyStr, breakLast c t = none → splitCh c t = [t] := by
  intro t
  induction t with
  | nil => intro _; rfl
  | cons x t' ih =>
    intro h
    rcases hb : breakLast c t' with _ | ⟨b, a⟩
    · simp only [breakLast, hb] at h
      by_cases hxc : x = c
      · rw [if_pos hxc] at h
        exact absurd h (by simp)
      · rw [splitCh, ih hb]
        simp [hxc]
    · rw [breakLast] at h
      rw [hb] at h
      exact absurd h (by simp)

theorem splitCh_two_le_of_breakLast_some (c : Char) :
    ∀ (t : PyStr) (p : PyStr × PyStr), breakLast c t = some p → 2 ≤ (splitCh c t).length := by
  intro t
  induction t with
  | nil => intro p h; exact absurd h (by simp [breakLast])
  | cons x t' ih =>
    intro p h
    rcases hb : breakLast c t' with _ | ⟨b, a⟩
    · rw [breakLast] at h
      rw [hb] at h
      by_cases hxc : x = c
      · rw [splitCh, splitCh_of_breakLast_none c t' hb]
        simp [hxc]
      · exact absurd h (by simp [hxc])
    · have h2 := ih (b, a) hb
      rcases hs : splitCh c t' with _ | ⟨hd, r⟩
      · exact absurd hs (splitCh_ne_nil c t')
      · rw [hs] at h2
        by_cases hxc : x = c
        · rw [splitCh, hs]
          simp only [hxc, if_true, List.length_cons] at *
          omega
        · rw [splitCh, hs]
          simp only [hxc, if_false, List.length_cons] at *
          omega

theorem getLastD_splitCh_eq_segName (c : Char) :
    ∀ t : PyStr, (splitCh c t).getLastD [] =
      (match breakLast c t with
        | some (_, a) => a
        | none => t) := by
  intro t
  induction t with
  | nil => rfl
  | cons x t' ih =>
    rcases hs : splitCh c t' with _ | ⟨hd, r⟩
    · exact absurd hs (splitCh_ne_nil c t')
    · rcases hb : breakLast c t' with _ | ⟨b, a⟩
      · have hone := splitCh_of_breakLast_none c t' hb
        rw [hs] at hone
        obtain ⟨rfl, rfl⟩ : hd = t' ∧ r = [] := by
          simpa using hone
        by_cases hxc : x = c <;>
          simp [splitCh, breakLast, hs, hb, hxc, List.getLastD_cons]
      · simp only [hs, hb] at ih
        have h2 := splitCh_two_le_of_breakLast_some c t' (b, a) hb
        rw [hs] at h2
        rcases r with _ | ⟨r0, r'⟩
        · simp at h2
        · simp only [List.getLastD_cons] at ih
          have key : (r0 :: r').getLast?.getD ([] : PyStr) = a := by
            rw [← List.getLastD_eq_getLast?, List.getLastD_cons]
            exact ih
          by_cases hxc : x = c <;>
            simp [splitCh, breakLast, hs, hb, hxc, List.getLastD_cons, key]

theorem joinCh_cons (c : Char) (a : PyStr) (l : List PyStr) :
    joinCh c (a :: l) = if l = [] then a else a ++ c :: joinCh c l := by
  cases l with
  | nil => simp [joinCh, List.intersperse]
  | cons b l' => simp [joinCh, List.intersperse]

theorem joinCh_cons_head (c : Char) (x : Char) (hd : PyStr) (l : List PyStr) :
    joinCh c ((x :: hd) :: l) = x :: joinCh c (hd :: l) := by
  cases l with
  | nil => simp [joinCh_cons]
  | cons b l' => simp [joinCh_cons]

theorem joinCh_dropLast_splitCh_eq_segBefore (c : Char) :
    ∀ t : PyStr, joinCh c ((splitCh c t).dropLast) =
      (match breakLast c t with
        | some (b, _) => b
        | none => []) := by
  intro t
  induction t with
  | nil => rfl
  | cons x t' ih =>
    rcases hs : splitCh c t' with _ | ⟨hd, r⟩
    · exact absurd hs (splitCh_ne_nil c t')
    · rcases hb : breakLast c t' with _ | ⟨b, a⟩
      · have hone := splitCh_of_breakLast_none c t' hb
        rw [hs] at hone
        obtain ⟨rfl, rfl⟩ : hd = t' ∧ r = [] := by
          simpa using hone
        by_cases hxc : x = c <;>
          simp [splitCh, breakLast, hs, hb, hxc, joinCh, List.intersperse]
      · simp only [hs, hb] at ih
        have h2 := splitCh_two_le_of_breakLast_some c t' (b, a) hb
        rw [hs] at h2
        rcases r with _ | ⟨r0, r'⟩
        · simp at h2
        · rw [List.dropLast_cons₂] at ih
          by_cases hxc : x = c
          · simp only [splitCh, breakLast, hs, hb, hxc, if_true]
            rw [List.dropLast_cons₂, List.dropLast_cons₂]
            rw [joinCh_cons]
            simp only [List.cons_ne_nil, if_false, List.nil_append]
            rw [ih]
          · simp only [splitCh, breakLast, hs, hb, hxc, if_false]
            rw [List.dropLast_cons₂]
            rw [joinCh_cons_head, ih]

theorem explode_parameters_eq_spec (p : PyStr) :
    explode_parameters p = (splitCh ',' p).map
      (fun seg => { name := segName (pyStrip seg), type := segType (pyStrip seg) : ParamRec }) := by
  rw [explode_parameters]
  refine List.map_congr_left (fun seg _ => ?_)
  dsimp only
  congr 1
  · exact getLastD_splitCh_eq_segName ' ' (pyStrip seg)
  · rw [segType, joinCh_dropLast_splitCh_eq_segBefore ' ' (pyStrip seg)]

/-- C5: a parameter text whose stripped form is exactly `void` or empty gives
an empty parameter list; any other parameter text splits on commas, each
comma-segment (stripped) contributing the text after its last space as the
parameter name and the stripped text before that space as the type; checked
also on the spec's concrete example. -/
theorem c5_function_params :
    (∀ p : PyStr, pyStrip p = "void".data ∨ pyStrip p = [] → funcParams p = []) ∧
    (∀ p : PyStr, ¬(pyStrip p = "void".data ∨ pyStrip p = []) →
      funcParams p = (splitCh ',' (pyStrip p)).map
        (fun seg => { name := segName (pyStrip seg), type := segType (pyStrip seg) : ParamRec })) ∧
    (∃ r, parse_function
        "EOS_DECLARE_FUNC(EOS_EResult) EOS_Foo(const char* Name, int32_t Count);".data
        [] "f.h".data = .ok r ∧
      r.params = [⟨"Name".data, "const char*".data⟩, ⟨"Count".data, "int32_t".data⟩]) := by
  refine ⟨?_, ?_, ⟨_, rfl, rfl⟩⟩
  · intro p hp
    simp only [funcParams]
    rw [if_pos hp]
  · intro p hp
    simp only [funcParams]
    rw [if_neg hp]
    exact explode_parameters_eq_spec (pyStrip p)

/-- C5 witness: the theorem applied at concrete parameter texts — `" void "`
strips to `void` and yields no parameters, while `"const char* Name"` yields
name `Name` of type `const char*`. -/
theorem c5_witness :
    funcParams " void ".data = [] ∧
    funcParams "const char* Name".data = [⟨"Name".data, "const char*".data⟩] := by
  constructor
  · exact c5_function_params.1 " void ".data (by decide)
  · rw [c5_function_params.2.1 "const char* Name".data (by decide)]
    rfl

/-!
## The enum block sub-parser (`parse_enum`) and claim C4
-/

/-- One `{comment, name, value}` enum value entry. -/
structure EnumEntry where
  comment : PyStr
  name : PyStr
  value : PyStr
deriving DecidableEq

/-- An enum record of `parse_enum` (`values` is the `enum_attrs` dict in
insertion order). -/
structure EnumRec where
  comment : PyStr
  enumname : PyStr
  source : PyStr
  values : List (PyStr × EnumEntry)
deriving DecidableEq

/-- A character of the entry-value class `[x0-9a-f()< ]`. -/
def isEnumValChar (c : Char) : Bool :=
  c = 'x' || c.isDigit || ('a' ≤ c && c ≤ 'f') || c = '(' || c = ')' || c = '<' || c = ' '

/-- The entry regex `^(?P<name>[a-zA-Z0-9_]+)( *= *(?P<value>[x0-9a-f()< ]+))?,?$`
matched structurally: identifier run, then either the `= value` group followed
by an optional comma at the end, or directly an optional comma at the end. -/
def matchEnumEntry (line : PyStr) : Option (PyStr × Option PyStr) :=
  let (nm, r) := takeRun isAlnumU line
  if nm = [] then none
  else
    match r.dropWhile (· = ' ') with
    | '=' :: r2 =>
      let (v, r4) := takeRun isEnumValChar (r2.dropWhile (· = ' '))
      if v ≠ [] ∧ (r4 = [] ∨ r4 = [',']) then some (nm, some v) else none
    | _ => if r = [] ∨ r = [','] then some (nm, none) else none

/-- The running `last_enum_value` of `parse_enum`: the Python int `-1`
initially, the matched (or computed) string after any processed entry. -/
inductive LastVal : Type where
  | int : Int → LastVal
  | str : PyStr → LastVal
deriving DecidableEq

/-- Python `int(last_enum_value)`: identity on an int, string conversion
(possibly raising `ValueError`) on a string. -/
def lastValInt : LastVal → Option Int
  | .int n => some n
  | .str s => pyIntStr s

/-- Resolving one entry: an explicit literal becomes the new running value
verbatim; an omitted literal becomes `str(int(last_enum_value) + 1)`. -/
def enumEntryStep (last : LastVal) (v? : Option PyStr) : Except PyErr (LastVal × PyStr) :=
  match v? with
  | some v => .ok (.str v, v)
  | none =>
    match lastValInt last with
    | none => .error .valueError
    | some n => .ok (.str (intToStr (n + 1)), intToStr (n + 1))

/-- The entry loop of `parse_enum` over the unread suffix, with `fuel`
bounding the number of iterations (each iteration consumes at least one
line, so `rest.length + 1` is always enough; see `parseEnumLoop_isSome`). -/
def parseEnumLoop : Nat → List PyStr → LastVal → PyStr → List (PyStr × EnumEntry) →
    Option (Except PyErr (List PyStr × List (PyStr × EnumEntry)))
  | 0, _, _, _, _ => none
  | fuel + 1, rest, last, lastComment, attrs =>
    match rest with
    | [] => some (.error .assertionError)
    | l :: rest' =>
      let line := pyStrip l
      if line = [] then parseEnumLoop fuel rest' last lastComment attrs
      else if line = ");".data then some (.ok (rest', attrs))
      else if hasSub "/*".data line then
        match absorbCommentS rest' line with
        | .error e => some (.error e)
        | .ok (rest'', c) => parseEnumLoop fuel rest'' last c attrs
      else
        match matchEnumEntry line with
        | none => some (.error .assertionError)
        | some (nm, v?) =>
          if nm ∈ attrs.map Prod.fst then some (.error .assertionError)
          else
            match enumEntryStep last v? with
            | .error e => some (.error e)
            | .ok (last', val) =>
              parseEnumLoop fuel rest' last' [] (attrs ++ [(nm, ⟨lastComment, nm, val⟩)])

theorem absorbCommentLoop_length_le :
    ∀ (rest : List PyStr) (line last : PyStr) (t : List PyStr) (txt : PyStr),
      absorbCommentLoop rest line last = .ok (t, txt) → t.length ≤ rest.length := by
  intro rest
  induction rest with
  | nil =>
    intro line last t txt h
    rw [absorbCommentLoop] at h
    split at h
    · simp only [Except.ok.injEq, Prod.mk.injEq] at h
      rw [← h.1]
    · exact absurd h (by simp)
  | cons l rest' ih =>
    intro line last t txt h
    rw [absorbCommentLoop] at h
    split at h
    · simp only [Except.ok.injEq, Prod.mk.injEq] at h
      simp [← h.1]
    · exact Nat.le_succ_of_le (ih _ _ t txt h)

theorem absorbCommentS_length_le (rest : List PyStr) (line : PyStr) (t : List PyStr)
    (txt : PyStr) (h : absorbCommentS rest line = .ok (t, txt)) : t.length ≤ rest.length := by
  rw [absorbCommentS] at h
  split at h
  · exact absorbCommentLoop_length_le rest _ [] t txt h
  · exact absurd h (by simp)

theorem parseEnumLoop_isSome :
    ∀ (fuel : Nat) (rest : List PyStr) (last : LastVal) (lc : PyStr)
      (attrs : List (PyStr × EnumEntry)), rest.length < fuel →
      (parseEnumLoop fuel rest last lc attrs).isSome := by
  intro fuel
  induction fuel with
  | zero => intro rest _ _ _ h; exact absurd h (by omega)
  | succ fuel ih =>
    intro rest last lc attrs h
    match rest with
    | [] => simp [parseEnumLoop]
    | l :: rest' =>
      rw [parseEnumLoop]
      simp only [List.length_cons] at h
      by_cases h1 : pyStrip l = []
      · simp only [h1, if_true]
        exact ih rest' last lc attrs (by omega)
      · rw [if_neg h1]
        by_cases h2 : pyStrip l = ");".data
        · simp [h2]
        · rw [if_neg h2]
          by_cases h3 : hasSub "/*".data (pyStrip l) = true
          · rw [if_pos h3]
            rcases habs : absorbCommentS rest' (pyStrip l) with e | ⟨rest'', c⟩
            · simp [habs]
            · have hle := absorbCommentS_length_le rest' (pyStrip l) rest'' c habs
              simp only [habs]
              exact ih rest'' last c attrs (by omega)
          · rw [if_neg h3]
            rcases hm : matchEnumEntry (pyStrip l) with _ | ⟨nm, v?⟩
            · simp [hm]
            · simp only [hm]
              by_cases h4 : nm ∈ attrs.map Prod.fst
              · simp [h4]
              · rw [if_neg h4]
                rcases hst : enumEntryStep last v? with e | ⟨last', val⟩
                · simp [hst]
                · simp only [hst]
                  exact ih rest' last' [] _ (by omega)

/-- The start-line regex `^EOS_ENUM\((?P<name>[a-zA-Z0-9_]+), *$`. -/
def matchEnumStart (line : PyStr) : Option PyStr :=
  if ("EOS_ENUM(".data).isPrefixOf line then
    let (nm, r1) := takeRun isAlnumU (line.drop ("EOS_ENUM(".data).length)
    if nm = [] then none
    else
      match r1 with
      | ',' :: r2 => if r2.all (· = ' ') then some nm else none
      | _ => none
  else none

/-- `parse_enum(content, i, line, comment, file)` of the script: match the
start line, then run the entry loop with `last_enum_value = -1`; the returned
cursor is the index of the first unread line. -/
def parse_enum (content : List PyStr) (i : Nat) (line comment file : PyStr) :
    Except PyErr (Nat × EnumRec) :=
  match matchEnumStart line with
  | none => .error .assertionError
  | some ename =>
    let rest := content.drop i
    match (parseEnumLoop (rest.length + 1) rest (.int (-1)) [] []).get
        (parseEnumLoop_isSome (rest.length + 1) rest (.int (-1)) [] [] (Nat.lt_succ_self _)) with
    | .error e => .error e
    | .ok (rest', attrs) =>
      .ok (content.length - rest'.length,
        { comment := comment, enumname := ename, source := file, values := attrs })

/-- C4: an enum entry that omits its explicit literal resolves to
`str(int(last_enum_value) + 1)` — the integer successor of the previous
resolved value — with the running value initialised to `-1` before the first
entry; in particular `A = 5`, `B`, `C` resolve to `5`, `6`, `7`, and a first
entry with no literal resolves to `0`. -/
theorem c4_enum_implicit_increment :
    (∀ (last : LastVal) (n : Int), lastValInt last = some n →
      enumEntryStep last none = .ok (.str (intToStr (n + 1)), intToStr (n + 1))) ∧
    (∃ r, parse_enum ["A = 5,".data, "B,".data, "C".data, ");".data] 0
        "EOS_ENUM(EOS_ETest,".data [] "f.h".data = .ok (4, r) ∧
      r.values.map (fun p => (p.2.name, p.2.value)) =
        [("A".data, "5".data), ("B".data, "6".data), ("C".data, "7".data)]) ∧
    (∃ r, parse_enum ["First".data, ");".data] 0 "EOS_ENUM(EOS_EInit,".data [] "f.h".data
        = .ok (2, r) ∧ r.values.map (fun p => p.2.value) = ["0".data]) := by
  refine ⟨?_, ⟨_, rfl, rfl⟩, ⟨_, rfl, rfl⟩⟩
  intro last n h
  simp only [enumEntryStep, h]

/-- C4 witness: the step applied at a concrete previous value `41`. -/
theorem c4_witness :
    lastValInt (.str "41".data) = some 41 ∧
    enumEntryStep (.str "41".data) none = .ok (.str (intToStr 42), intToStr 42) := by
  refine ⟨by decide, ?_⟩
  have := c4_enum_implicit_increment.1 (.str "41".data) 41 (by decide)
  simpa using this

/-!
## The typedef sub-parser (`parse_typedef`) and claim C6
-/

/-- A typedef record of `parse_typedef`. -/
structure TypedefRec where
  comment : PyStr
  /-- The `extern` key of the returned dict (renamed here). -/
  externC : Bool
  name : PyStr
  source : PyStr
  type : PyStr
deriving DecidableEq

/-- The name alternative `(?P<name>[a-zA-Z0-9_]+)` of the typedef regex,
covering the whole tail before the final `;`. -/
def tdMatchName (t : PyStr) : Option PyStr :=
  if t ≠ [] ∧ t.all isAlnumU then some t else none

/-- The function-pointer alternative
`(?P<signature>\(.*\* *(?P<name2>[a-zA-Z0-9_]+)\)\(.*\))` of the typedef
regex: `(`, then (greedily, i.e. scanning for the rightmost `*` that works) a
`*`, optional spaces, the embedded name, `)`, `(`, and anything up to a `)`
ending the tail.  Returns `(name2, signature)` where the signature is the
whole tail. -/
def tdMatchSig (t : PyStr) : Option (PyStr × PyStr) :=
  match t with
  | '(' :: t1 =>
    ((List.range t1.length).reverse.filterMap (fun j =>
      if t1.get? j = some '*' then
        let (nm, r) := takeRun isAlnumU ((t1.drop (j + 1)).dropWhile (· = ' '))
        match r with
        | ')' :: '(' :: rest2 =>
          if nm ≠ [] ∧ rest2 ≠ [] ∧ rest2.getLast? = some ')' then
            some (nm, '(' :: t1)
          else none
        | _ => none
      else none)).head?
  | _ => none

/-- `parse_typedef` of the script for one line.  The regex
`^(?P<extern>EOS_EXTERN_C )?typedef (?P<type>.+) ((?P<name>...)|(?P<signature>...));$`
is matched with the greedy split of `(?P<type>.+) `: the rightmost space for
which the tail matches the name alternative or, failing that, the
function-pointer alternative.  For the function-pointer shape the resolved
type strips the declared name (matching `" name"` when present, plain `name`
otherwise) from the signature once and normalises the calling-convention
markers. -/
def parse_typedef (line comment file : PyStr) : Except PyErr TypedefRec :=
  let ext := ("EOS_EXTERN_C ".data).isPrefixOf line
  let r0 := if ext then line.drop ("EOS_EXTERN_C ".data).length else line
  if ("typedef ".data).isPrefixOf r0 then
    let r1 := r0.drop ("typedef ".data).length
    if r1.getLast? = some ';' then
      let body := r1.dropLast
      match ((List.range body.length).reverse.filterMap (fun k =>
        if body.get? k = some ' ' then
          let ty := body.take k
          let tl := body.drop (k + 1)
          if ty = [] then none
          else
            match tdMatchName tl with
            | some nm => some (ty, Sum.inl nm)
            | none =>
              match tdMatchSig tl with
              | some (nm2, sig) => some (ty, Sum.inr (nm2, sig))
              | none => none
        else none)).head? with
      | none => .error .assertionError
      | some (ty, res) =>
        let defname := match res with
          | .inl nm => nm
          | .inr (nm2, _) => pyStrip nm2
        .ok { comment := comment
              externC := ext
              name := defname
              source := file
              type := pyStrip ty ++ (match res with
                | .inl _ => []
                | .inr (_, sig) =>
                  replaceAll "(EOS_MEMORY_CALL *".data "(*".data
                    (replaceAll "(EOS_CALL *".data "(*".data
                      (replaceFirst
                        (if hasSub (' ' :: defname) sig then ' ' :: defname else defname)
                        [] sig))) }
    else .error .assertionError
  else .error .assertionError

/-- C6 counterexample: on the typedef line of the claim the resolved type is
`void(*)(int32_t Param)` — the return type and the pointer shape are
concatenated with no separating space — which differs from the claimed
`void (*)(int32_t Param)`. -/
theorem c6_counterexample :
    Except.map (fun r => (r.name, r.type))
      ( parse_typedef "typedef void (*Foo)(int32_t Param);".data [] "f.h".data)
      = .ok ("Foo".data, "void(*)(int32_t Param)".data) ∧
    "void(*)(int32_t Param)".data ≠ "void (*)(int32_t Param)".data := by
  exact ⟨rfl, by decide⟩

/-- C6 (amended): parsing `typedef void (*Foo)(int32_t Param);` produces name
`Foo` and resolved type exactly `void(*)(int32_t Param)` (declared name and
calling-convention markers stripped; no space between the return type and the
pointer shape). -/
theorem c6_amended_typedef :
    ∃ r, parse_typedef "typedef void (*Foo)(int32_t Param);".data [] "f.h".data = .ok r ∧
      r.name = "Foo".data ∧ r.type = "void(*)(int32_t Param)".data :=
  ⟨_, rfl, rfl, rfl⟩

/-!
## The UI-key macro sub-parser (`parse_ui_enum`) and claim C8
-/

/-- One `{comment, name, value}` UI enum value entry. -/
structure UiEntry where
  comment : PyStr
  name : PyStr
  value : PyStr
deriving DecidableEq

/-- A character of the class `[_A-Z]` of the UI macro-name suffix. -/
def isUpperU (c : Char) : Bool := c.isUpper || c = '_'

/-- The `eos_ui_keys.h` regex
`^(?P<macro>EOS_UI_KEY([_A-Z]+))\((?P<prefix>[a-zA-Z0-9_]+), (?P<name>[a-zA-Z0-9_]+)(, (?P<value>.+))?\)$`
matched structurally; returns `(macro, prefix, name, optional value)`, the
value being everything between the second `", "` and the final `)`. -/
def matchUiKeyLine (line : PyStr) : Option (PyStr × PyStr × PyStr × Option PyStr) :=
  if ("EOS_UI_KEY".data).isPrefixOf line then
    let (sfx, r0) := takeRun isUpperU (line.drop ("EOS_UI_KEY".data).length)
    if sfx = [] then none else
    match r0 with
    | '(' :: r1 =>
      let (pre, r2) := takeRun isAlnumU r1
      if pre = [] then none else
      match r2 with
      | ',' :: ' ' :: r3 =>
        let (nm, r4) := takeRun isAlnumU r3
        if nm = [] then none else
        match r4 with
        | [')'] => some ("EOS_UI_KEY".data ++ sfx, pre, nm, none)
        | ',' :: ' ' :: r5 =>
          if r5.getLast? = some ')' ∧ r5.dropLast ≠ [] then
            some ("EOS_UI_KEY".data ++ sfx, pre, nm, some r5.dropLast)
          else none
        | _ => none
      | _ => none
    | _ => none
  else none

/-- The parent enum name of the key-combination family. -/
def keysEnumName : PyStr := "EOS_UI_EKeyCombination".data

/-- `parse_ui_enum(i, line, comment, file, enum_last_index)` of the script,
for the `eos_ui_keys.h` family (the `eos_ui_buttons.h` family differs only in
that its value group is mandatory and the counter is never touched).  When the
value is omitted the macro must be `EOS_UI_KEY_ENTRY` or
`EOS_UI_KEY_CONSTANT_LAST` and the value becomes the incremented running
counter; `EOS_UI_KEY_ENTRY_FIRST` (whose value is therefore always explicit)
resets the counter to `int(value)`.  In every successful case an entry record
`{comment, name, value}` is returned to the dispatcher. -/
def parse_ui_enum (i : Nat) (line comment file : PyStr) (counter : Int) :
    Except PyErr (Nat × PyStr × Int × UiEntry) :=
  if file = "eos_ui_keys.h".data then
    match matchUiKeyLine line with
    | none => .error .assertionError
    | some (mac, pre, nm, v?) =>
      match v? with
      | none =>
        if mac = "EOS_UI_KEY_ENTRY".data ∨ mac = "EOS_UI_KEY_CONSTANT_LAST".data then
          -- macro is not EOS_UI_KEY_ENTRY_FIRST here, so no reset follows
          .ok (i, keysEnumName, counter + 1,
            ⟨comment, pyStrip pre ++ pyStrip nm, intToStr (counter + 1)⟩)
        else .error .assertionError
      | some v0 =>
        let v := pyStrip v0
        if mac = "EOS_UI_KEY_ENTRY_FIRST".data then
          match pyIntStr v with
          | none => .error .valueError
          | some idx => .ok (i, keysEnumName, idx, ⟨comment, pyStrip pre ++ pyStrip nm, v⟩)
        else .ok (i, keysEnumName, counter, ⟨comment, pyStrip pre ++ pyStrip nm, v⟩)
  else .error .assertionError

/-- The `EOS_UI_` branch of the dispatcher (`index_sdk_directory`): call
`parse_ui_enum`, assert the effective name is new in the parent enum's values
and insert the returned definition there. -/
def uiDispatchStep (vals : List (PyStr × UiEntry)) (counter : Int) (line comment file : PyStr) :
    Except PyErr (Int × List (PyStr × UiEntry)) :=
  match parse_ui_enum 0 line comment file counter with
  | .error e => .error e
  | .ok (_, _, counter', d) =>
    if d.name ∈ vals.map Prod.fst then .error .assertionError
    else .ok (counter', vals ++ [(d.name, d)])

/-- C8 counterexample: processing the reset-variant line
`EOS_UI_KEY_ENTRY_FIRST(EOS_UIK_, None, 0)` resets the running counter to `0`
and nevertheless inserts an entry-bearing record (named `EOS_UIK_None`, value
`0`) into the target enum, contradicting the claim that the reset variant
emits no entry-bearing record. -/
theorem c8_counterexample :
    Except.map (fun p => (p.1, p.2.map Prod.fst))
      (uiDispatchStep [] 7 "EOS_UI_KEY_ENTRY_FIRST(EOS_UIK_, None, 0)".data [] "eos_ui_keys.h".data)
      = .ok (0, ["EOS_UIK_None".data]) ∧
    (["EOS_UIK_None".data] : List PyStr) ≠ [] := by
  exact ⟨rfl, by decide⟩

/-- C8 (amended): in the key-combination family an omitted literal is
accepted only for the two auto-index macros, resolving to the incremented
running counter; the reset variant `EOS_UI_KEY_ENTRY_FIRST` sets the counter
to its explicit value but still returns an entry-bearing record, which the
dispatcher inserts into the target enum like any other entry. -/
theorem c8_ui_key_rules :
    (∀ (i : Nat) (line comment : PyStr) (counter : Int) (mac pre nm : PyStr),
      matchUiKeyLine line = some (mac, pre, nm, none) →
      (¬(mac = "EOS_UI_KEY_ENTRY".data ∨ mac = "EOS_UI_KEY_CONSTANT_LAST".data) →
        parse_ui_enum i line comment "eos_ui_keys.h".data counter = .error .assertionError) ∧
      ((mac = "EOS_UI_KEY_ENTRY".data ∨ mac = "EOS_UI_KEY_CONSTANT_LAST".data) →
        parse_ui_enum i line comment "eos_ui_keys.h".data counter
          = .ok (i, keysEnumName, counter + 1,
              ⟨comment, pyStrip pre ++ pyStrip nm, intToStr (counter + 1)⟩))) ∧
    (∀ (i : Nat) (line comment : PyStr) (counter idx : Int) (pre nm v : PyStr),
      matchUiKeyLine line = some ("EOS_UI_KEY_ENTRY_FIRST".data, pre, nm, some v) →
      pyIntStr (pyStrip v) = some idx →
      parse_ui_enum i line comment "eos_ui_keys.h".data counter
        = .ok (i, keysEnumName, idx, ⟨comment, pyStrip pre ++ pyStrip nm, pyStrip v⟩)) ∧
    (∀ (vals : List (PyStr × UiEntry)) (counter counter' : Int) (line : PyStr)
      (d : UiEntry) (j : Nat) (parent : PyStr),
      parse_ui_enum 0 line [] "eos_ui_keys.h".data counter = .ok (j, parent, counter', d) →
      d.name ∉ vals.map Prod.fst →
      uiDispatchStep vals counter line [] "eos_ui_keys.h".data
        = .ok (counter', vals ++ [(d.name, d)])) := by
  refine ⟨?_, ?_, ?_⟩
  · intro i line comment counter mac pre nm hm
    constructor
    · intro hmac
      rw [parse_ui_enum, if_pos rfl]
      simp only [hm]
      rw [if_neg hmac]
    · intro hmac
      rw [parse_ui_enum, if_pos rfl]
      simp only [hm]
      rw [if_pos hmac]
  · intro i line comment counter idx pre nm v hm hv
    rw [parse_ui_enum, if_pos rfl]
    simp only [hm, hv]
    simp
  · intro vals counter counter' line d j parent hp hd
    rw [uiDispatchStep]
    simp only [hp]
    rw [if_neg hd]

/-- C8 witness: the amended rules at concrete lines — an omitted value on the
non-auto-index macro `EOS_UI_KEY_CONSTANT` is fatal, an omitted value on
`EOS_UI_KEY_ENTRY` resolves to the incremented counter, and the reset variant
resets the counter and is inserted as an entry by the dispatcher. -/
theorem c8_witness :
    parse_ui_enum 0 "EOS_UI_KEY_CONSTANT(EOS_UIK_, Minus)".data [] "eos_ui_keys.h".data 3
      = .error .assertionError ∧
    parse_ui_enum 0 "EOS_UI_KEY_ENTRY(EOS_UIK_, Space)".data [] "eos_ui_keys.h".data 3
      = .ok (0, keysEnumName, 4, ⟨[], "EOS_UIK_Space".data, intToStr 4⟩) ∧
    uiDispatchStep [] 7 "EOS_UI_KEY_ENTRY_FIRST(EOS_UIK_, None, 0)".data [] "eos_ui_keys.h".data
      = .ok (0, [("EOS_UIK_None".data,
          ⟨[], "EOS_UIK_None".data, "0".data⟩)]) := by
  refine ⟨?_, ?_, ?_⟩
  · exact (c8_ui_key_rules.1 0 _ [] 3 "EOS_UI_KEY_CONSTANT".data "EOS_UIK_".data "Minus".data
      (by decide)).1 (by decide)
  · exact (c8_ui_key_rules.1 0 _ [] 3 "EOS_UI_KEY_ENTRY".data "EOS_UIK_".data "Space".data
      (by decide)).2 (by decide)
  · exact c8_ui_key_rules.2.2 [] 7 0 _ ⟨[], "EOS_UIK_None".data, "0".data⟩ 0 keysEnumName
      (c8_ui_key_rules.2.1 0 _ [] 7 0 "EOS_UIK_".data "None".data "0".data (by decide) (by decide))
      (by decide)

/-!
## The dependency orderer (`build_file_read_order`) and claim C2

The Python loop `while files_priority:` runs full passes over the remaining
files, emitting (within the pass, in input order, and visible to later files
of the same pass) every file whose remaining include set is already ordered.
A pass that emits nothing leaves the state unchanged, so on a cyclic include
graph the loop never terminates and never raises.  `fuel` bounds the number
of passes; `.ok none` means the loop was still running when the bound was
reached.
-/

/-- The include regex `^#include +(?P<path>[^ ]+)$` applied to a line already
known to start with `#include ` (one or more spaces, then a non-empty run of
non-space characters reaching the end of the line). -/
def matchIncludeLine (line : PyStr) : Option PyStr :=
  let (sp, r1) := takeRun (· = ' ') (line.drop ("#include".data).length)
  if sp ≠ [] ∧ r1 ≠ [] ∧ r1.all (· ≠ ' ') then some r1 else none

/-- The include-listing phase of `build_file_read_order` for one file:
quoted includes naming another input file become edges (a Python set, modelled
as a deduplicated list); system (`<...>`) and macro-name includes are skipped;
anything else, or a quoted include not in the input set, is fatal. -/
def fileIncludes (fileNames : List PyStr) (file : PyStr) (content : List PyStr) :
    Except PyErr (List PyStr) :=
  content.foldlM (fun includes line =>
    if ("#include ".data).isPrefixOf line then
      match matchIncludeLine line with
      | none => .error .assertionError
      | some path0 =>
        let path := pyStrip path0
        if path.head? = some '"' ∧ path.getLast? = some '"' then
          if endsWithL ".h".data file ∨ endsWithL ".inl".data file then
            let inner := (path.drop 1).dropLast
            if inner ∈ fileNames then
              .ok (if inner ∈ includes then includes else includes ++ [inner])
            else .error .assertionError
          else .ok includes
        else if (path.head? = some '<' ∧ path.getLast? = some '>') ∨
            (path ≠ [] ∧ path.all isAlnumU) then
          .ok includes
        else .error .assertionError
    else .ok includes) []

/-- The `files_priority` mapping: file name to its include list, in the input
(file-index) order. -/
def buildPriority (files : List (PyStr × List PyStr)) :
    Except PyErr (List (PyStr × List PyStr)) :=
  files.foldlM (fun acc p =>
    match fileIncludes (files.map Prod.fst) p.1 p.2 with
    | .error e => .error e
    | .ok inc => .ok (acc ++ [(p.1, inc)])) []

/-- Exclusion of `.inl` files never included by any `.h` file. -/
def excludeInl (prio : List (PyStr × List PyStr)) : List (PyStr × List PyStr) :=
  prio.filter (fun p =>
    !(endsWithL ".inl".data p.1 &&
      !(prio.any (fun q => endsWithL ".h".data q.1 && q.2.contains p.1))))

/-- One full pass of the `while files_priority:` loop: files are visited in
order; a file whose remaining includes are all in `files_order` is appended to
the order (visible to the rest of the same pass) and dropped; otherwise its
include list is replaced by the filtered remainder (the script assigns the
shrunk set only when it actually shrank, which stores the same contents). -/
def sweepPass : List PyStr → List (PyStr × List PyStr) → List PyStr × List (PyStr × List PyStr)
  | ord, [] => (ord, [])
  | ord, (f, deps) :: rest =>
    let newV := deps.filter (fun d => !(ord.contains d))
    if newV = [] then
      sweepPass (ord ++ [f]) rest
    else
      let (ord', rest') := sweepPass ord rest
      (ord', (f, newV) :: rest')

/-- The pass loop, with `fuel` bounding the number of passes: `some order`
when the priority map empties, `none` when the bound is reached first. -/
def orderLoop : Nat → List PyStr → List (PyStr × List PyStr) → Option (List PyStr)
  | _, ord, [] => some ord
  | 0, _, _ :: _ => none
  | fuel + 1, ord, p :: prio =>
    let s := sweepPass ord (p :: prio)
    orderLoop fuel s.1 s.2

/-- `build_file_read_order(files_index)` of the script, run for at most `fuel`
passes of its final loop: `.error` is a fatal include-format error, `.ok
(some order)` a completed run, `.ok none` a run still looping when the pass
bound was reached. -/
def build_file_read_order_fuel (fuel : Nat) (files : List (PyStr × List PyStr)) :
    Except PyErr (Option (List PyStr)) :=
  match buildPriority files with
  | .error e => .error e
  | .ok prio => .ok (orderLoop fuel [] (excludeInl prio))

/-- The cyclic two-file corpus: `a.h` includes `b.h` and `b.h` includes
`a.h`. -/
def cycFiles : List (PyStr × List PyStr) :=
  [("a.h".data, ["#include \"b.h\"".data]), ("b.h".data, ["#include \"a.h\"".data])]

/-- The acyclic two-file corpus: `a.h` has no includes, `b.h` includes
`a.h`. -/
def acycFiles : List (PyStr × List PyStr) :=
  [("a.h".data, []), ("b.h".data, ["#include \"a.h\"".data])]

/-- The priority mapping computed for the cyclic corpus. -/
def cycPrio : List (PyStr × List PyStr) :=
  [("a.h".data, ["b.h".data]), ("b.h".data, ["a.h".data])]

/-!
## The normalizer (`sort_dict`, `sort_list_items`) and claim C3

A JSON-like value as manipulated by the script's final normalization step.
`sort_dict` sorts a dict's items by key (Python compares `(key, value)`
tuples, but dict keys are unique so only the key matters; the sort is stable)
and recurses into the values; `sort_list_items` recurses into the elements of
a list but does not reorder the list itself.  The embedding transforms the
values first and then sorts by key, which yields the same mapping because the
key-only stable sort is independent of the transformed values.
-/

inductive PyVal : Type where
  | str : PyStr → PyVal
  | int : Int → PyVal
  | list : List PyVal → PyVal
  | dict : List (PyStr × PyVal) → PyVal

/-- Stable insertion by key into an already key-sorted association list: the
new pair goes after every existing pair whose key is not greater. -/
def insPair (x : PyStr × PyVal) : List (PyStr × PyVal) → List (PyStr × PyVal)
  | [] => [x]
  | y :: t => if x.1 < y.1 then x :: y :: t else y :: insPair x t

/-- Stable sort of a dict's items by key (the `sorted(data.items())` of the
script, keys compared lexicographically by code point). -/
def sortPairs (l : List (PyStr × PyVal)) : List (PyStr × PyVal) :=
  l.foldl (fun acc x => insPair x acc) []

mutual
/-- What the normalizer does to one value: `sort_dict` on a dict,
`sort_list_items` on a list, identity otherwise. -/
def sortVal : PyVal → PyVal
  | .str s => .str s
  | .int n => .int n
  | .list l => .list (sortListItems l)
  | .dict d => .dict (sortPairs (sortDictVals d))

/-- `sort_list_items` of the script: normalize each element in place. -/
def sortListItems : List PyVal → List PyVal
  | [] => []
  | v :: t => sortVal v :: sortListItems t

/-- The per-value recursion of `sort_dict` over a dict's items. -/
def sortDictVals : List (PyStr × PyVal) → List (PyStr × PyVal)
  | [] => []
  | (k, v) :: t => (k, sortVal v) :: sortDictVals t
end

/-- `sort_dict` of the script. -/
def sort_dict (d : List (PyStr × PyVal)) : List (PyStr × PyVal) :=
  sortPairs (sortDictVals d)

/-- `sort_list_items` of the script (top-level entry point). -/
def sort_list_items (l : List PyVal) : List PyVal := sortListItems l

/-- Python dict lookup `d[k]` as first-match lookup in the association
list. -/
def pyGet (k : PyStr) : List (PyStr × PyVal) → Option PyVal
  | [] => none
  | (k', v) :: t => if k' = k then some v else pyGet k t

/-- The entries of an association list carrying the key `k`. -/
def filterK (k : PyStr) : List (PyStr × PyVal) → List (PyStr × PyVal)
  | [] => []
  | p :: t => if p.1 = k then p :: filterK k t else filterK k t

theorem insPair_mem (x : PyStr × PyVal) :
    ∀ (l : List (PyStr × PyVal)) (b : PyStr × PyVal), b ∈ insPair x l → b = x ∨ b ∈ l := by
  intro l
  induction l with
  | nil =>
    intro b hb
    rw [insPair] at hb
    exact Or.inl (List.mem_singleton.mp hb)
  | cons y t ih =>
    intro b hb
    rw [insPair] at hb
    split at hb
    · rcases List.mem_cons.mp hb with h | h
      · exact Or.inl h
      · exact Or.inr h
    · rcases List.mem_cons.mp hb with h | h
      · exact Or.inr (h ▸ List.mem_cons_self y t)
      · rcases ih b h with h' | h'
        · exact Or.inl h'
        · exact Or.inr (List.mem_cons_of_mem y h')

theorem insPair_sorted (x : PyStr × PyVal) :
    ∀ l : List (PyStr × PyVal),
      List.Sorted (fun a b : PyStr × PyVal => a.1 ≤ b.1) l →
      List.Sorted (fun a b : PyStr × PyVal => a.1 ≤ b.1) (insPair x l) := by
  intro l
  induction l with
  | nil => intro _; simp [insPair]
  | cons y t ih =>
    intro h
    rw [List.sorted_cons] at h
    obtain ⟨hy, ht⟩ := h
    rw [insPair]
    split
    · rename_i hlt
      rw [List.sorted_cons]
      refine ⟨?_, List.sorted_cons.mpr ⟨hy, ht⟩⟩
      intro b hb
      rcases List.mem_cons.mp hb with h | h
      · exact h ▸ le_of_lt hlt
      · exact le_trans (le_of_lt hlt) (hy b h)
    · rename_i hlt
      rw [List.sorted_cons]
      refine ⟨?_, ih ht⟩
      intro b hb
      rcases insPair_mem x t b hb with h | h
      · exact h ▸ le_of_not_lt hlt
      · exact hy b h

theorem sortPairs_sorted_aux :
    ∀ (l acc : List (PyStr × PyVal)),
      List.Sorted (fun a b : PyStr × PyVal => a.1 ≤ b.1) acc →
      List.Sorted (fun a b : PyStr × PyVal => a.1 ≤ b.1)
        (l.foldl (fun acc x => insPair x acc) acc) := by
  intro l
  induction l with
  | nil => intro acc h; exact h
  | cons x l' ih =>
    intro acc h
    rw [List.foldl_cons]
    exact ih (insPair x acc) (insPair_sorted x acc h)

theorem pyGet_eq_head_filterK (k : PyStr) :
    ∀ l : List (PyStr × PyVal), pyGet k l = ((filterK k l).head?).map Prod.snd := by
  intro l
  induction l with
  | nil => rfl
  | cons p t ih =>
    obtain ⟨k', v⟩ := p
    by_cases hk : k' = k <;> simp [pyGet, filterK, hk, ih]

theorem filterK_nil_of_keys_gt (k : PyStr) :
    ∀ l : List (PyStr × PyVal), (∀ b ∈ l, k < b.1) → filterK k l = [] := by
  intro l
  induction l with
  | nil => intro _; rfl
  | cons y t ih =>
    intro h
    have hne : ¬ y.1 = k := fun he => absurd (he ▸ h y (List.mem_cons_self y t)) (lt_irrefl k)
    rw [filterK, if_neg hne]
    exact ih (fun b hb => h b (List.mem_cons_of_mem y hb))

theorem filterK_insPair (k : PyStr) (x : PyStr × PyVal) :
    ∀ l : List (PyStr × PyVal),
      List.Sorted (fun a b : PyStr × PyVal => a.1 ≤ b.1) l →
      filterK k (insPair x l) = if x.1 = k then filterK k l ++ [x] else filterK k l := by
  intro l
  induction l with
  | nil =>
    intro _
    by_cases hxk : x.1 = k <;> simp [insPair, filterK, hxk]
  | cons y t ih =>
    intro h
    rw [List.sorted_cons] at h
    obtain ⟨hy, ht⟩ := h
    rw [insPair]
    split
    · rename_i hlt
      by_cases hxk : x.1 = k
      · have hnil : filterK k (y :: t) = [] := by
          apply filterK_nil_of_keys_gt
          intro b hb
          rcases List.mem_cons.mp hb with hb' | hb'
          · exact hb' ▸ (hxk ▸ hlt)
          · exact lt_of_lt_of_le (hxk ▸ hlt) (hy b hb')
        rw [if_pos hxk, hnil, filterK, if_pos hxk, hnil]
        rfl
      · rw [if_neg hxk, filterK, if_neg hxk]
    · rename_i hlt
      simp only [filterK, ih ht]
      by_cases hyk : y.1 = k <;> by_cases hxk : x.1 = k <;>
        simp [hyk, hxk]

theorem filterK_foldl (k : PyStr) :
    ∀ (l acc : List (PyStr × PyVal)),
      List.Sorted (fun a b : PyStr × PyVal => a.1 ≤ b.1) acc →
      filterK k (l.foldl (fun acc x => insPair x acc) acc)
        = filterK k acc ++ filterK k l := by
  intro l
  induction l with
  | nil => intro acc _; simp [filterK]
  | cons x l' ih =>
    intro acc h
    rw [List.foldl_cons]
    rw [ih (insPair x acc) (insPair_sorted x acc h)]
    rw [filterK_insPair k x acc h]
    by_cases hxk : x.1 = k <;> simp [filterK, hxk, List.append_assoc]

theorem pyGet_sortPairs (k : PyStr) (l : List (PyStr × PyVal)) :
    pyGet k (sortPairs l) = pyGet k l := by
  rw [pyGet_eq_head_filterK, pyGet_eq_head_filterK, sortPairs,
    filterK_foldl k l [] (by simp)]
  rfl

theorem pyGet_sortDictVals (k : PyStr) :
    ∀ d : List (PyStr × PyVal), pyGet k (sortDictVals d) = (pyGet k d).map sortVal := by
  intro d
  induction d with
  | nil => rfl
  | cons p t ih =>
    obtain ⟨k', v⟩ := p
    by_cases hk : k' = k <;> simp [pyGet, sortDictVals, hk, ih]

theorem sortListItems_eq_map : ∀ l : List PyVal, sortListItems l = l.map sortVal := by
  intro l
  induction l with
  | nil => rfl
  | cons v t ih => rw [sortListItems, ih, List.map_cons]

/-- C3 counterexample: the normalizer applied to an enum record whose
`values` list holds the entry named `B` before the entry named `A` returns
the document unchanged — the list of value records is not reordered, so the
entries do not come out ordered by name. -/
theorem c3_counterexample :
    sortVal (.dict [("enumname".data, .str "EOS_ETest".data),
      ("values".data, .list [.dict [("name".data, .str "B".data), ("value".data, .str "1".data)],
                             .dict [("name".data, .str "A".data), ("value".data, .str "0".data)]])])
    = .dict [("enumname".data, .str "EOS_ETest".data),
      ("values".data, .list [.dict [("name".data, .str "B".data), ("value".data, .str "1".data)],
                             .dict [("name".data, .str "A".data), ("value".data, .str "0".data)]])] ∧
    ¬ List.Sorted (fun a b : PyStr => a ≤ b) ["B".data, "A".data] := by
  constructor
  · have h1 : ¬ ("values".data < "enumname".data) := by decide
    have h2 : ¬ ("value".data < "name".data) := by decide
    simp [sortVal, sortListItems, sortDictVals, sortPairs, insPair, h1, h2]
  · decide

/-- C3 (amended): the normalizer recursively sorts mapping keys
alphabetically, but it does not sort list contents: a list keeps its length
and order (element `i` of the output is the normalization of element `i` of
the input), and a record field holding a string — such as an enum entry's
name — is preserved, so list-of-record sequences such as an enum's values
remain in encounter order rather than being ordered by name. -/
theorem c3_normalizer :
    (∀ d : List (PyStr × PyVal),
      List.Sorted (fun a b : PyStr × PyVal => a.1 ≤ b.1) (sort_dict d)) ∧
    (∀ l : List PyVal, (sort_list_items l).length = l.length) ∧
    (∀ (l : List PyVal) (i : Nat), (sort_list_items l)[i]? = l[i]?.map sortVal) ∧
    (∀ (d : List (PyStr × PyVal)) (k s : PyStr),
      pyGet k d = some (.str s) → pyGet k (sort_dict d) = some (.str s)) := by
  refine ⟨?_, ?_, ?_, ?_⟩
  · intro d
    exact sortPairs_sorted_aux (sortDictVals d) [] (by simp)
  · intro l
    rw [sort_list_items, sortListItems_eq_map, List.length_map]
  · intro l i
    rw [sort_list_items, sortListItems_eq_map, List.getElem?_map]
  · intro d k s hk
    rw [sort_dict, pyGet_sortPairs, pyGet_sortDictVals, hk]
    simp [sortVal]

/-- C3 witness: the amended theorem applied to a concrete two-entry list and
a concrete record — order and name field survive normalization. -/
theorem c3_witness :
    (sort_list_items [.str "B".data, .str "A".data])[0]? = some (.str "B".data) ∧
    pyGet "name".data (sort_dict [("value".data, .int 1), ("name".data, .str "B".data)])
      = some (.str "B".data) := by
  constructor
  · rw [c3_normalizer.2.2.1 [.str "B".data, .str "A".data] 0]
    simp [sortVal]
  · exact c3_normalizer.2.2.2 [("value".data, .int 1), ("name".data, .str "B".data)]
      "name".data "B".data (by simp [pyGet])

theorem orderLoop_cyc_none : ∀ n : Nat, orderLoop n [] cycPrio = none := by
  intro n
  induction n with
  | zero => rfl
  | succ n ih =>
    rw [show orderLoop (n + 1) [] cycPrio = orderLoop n [] cycPrio from rfl]
    exact ih

/-- C2: on the cyclic two-file corpus the ordering loop makes no progress in
any pass, so the run neither terminates with an order nor halts with a fatal
error — it loops forever (for every pass bound the loop is still running),
while the acyclic two-file corpus is ordered `[a.h, b.h]` in a single pass. -/
theorem c2_cycle_diverges :
    (∀ fuel : Nat, build_file_read_order_fuel fuel cycFiles = .ok none) ∧
    build_file_read_order_fuel 1 acycFiles = .ok (some ["a.h".data, "b.h".data]) := by
  constructor
  · intro fuel
    have hprio : buildPriority cycFiles = .ok cycPrio := by rfl
    have hexcl : excludeInl cycPrio = cycPrio := by rfl
    rw [build_file_read_order_fuel, hprio]
    simp only [hexcl, orderLoop_cyc_none fuel]
  · rfl

end EosIndex
